import Mathlib

/-!
Shallow embedding of `src/atomic.rs` (`iterlist::atomic::IterList`), a
doubly-linked list with a movable cursor, together with proofs about the
claims of its specification.

Modelling choices, justified against the source:

* All claims are settled for single-threaded executions.  In a
  single-threaded run every `compare_exchange` in the source succeeds
  (nothing else writes the cell between the load and the CAS), except the
  empty-list insertion CAS, whose outcome we keep as an explicit `casWon`
  parameter because claim C5 is about its failure path.

* On a well-formed heap the chain reachable from `current` is exactly a
  list zipper: the nodes before the cursor (nearest first), the cursor
  node, and the nodes after the cursor (nearest first).  Every pointer
  manipulation of the source is translated to the corresponding zipper
  manipulation; `null` becomes `none` / the empty list.

* `usize` counters (`index`, `len`) are modelled as `Nat` with wrapping
  arithmetic modulo `2^64` (`wadd`/`wsub` below): atomic `fetch_add` /
  `fetch_sub` always wrap in Rust, and the plain `-` occurrences
  (`move_to_back`, `move_to`, `split_before`) wrap in release builds.
  `isize` offsets are modelled as `Int`; the only place the `isize`
  representation matters is `offset.checked_abs()`, which returns `None`
  exactly at `isize::MIN = -2^63`.
-/

namespace Iterlist

/-- Width of `usize`: all counter arithmetic in the source is on 64-bit
machine words. -/
def W : Nat := 2 ^ 64

/-- Wrapping 64-bit addition (`usize::wrapping_add`, `fetch_add`). -/
def wadd (a b : Nat) : Nat := (a + b) % W

/-- Wrapping 64-bit subtraction (`usize::wrapping_sub`, `fetch_sub`, and
release-mode `-` on `usize`). -/
def wsub (a b : Nat) : Nat := (a + (W - b % W)) % W

/-- `isize::MIN`, the unique argument on which `isize::checked_abs`
returns `None`. -/
def isizeMin : Int := -(2 ^ 63)

/-- The observable state of an `IterList<T>`: the chain reachable from the
cursor as a zipper (`left` holds the nodes before the cursor, nearest
first; `right` the nodes after it, nearest first; `cur` the cursor node's
element, `none` when `current` is null), plus the two independent counter
cells `index` and `len`. -/
structure IterList (T : Type) where
  left  : List T
  cur   : Option T
  right : List T
  index : Nat
  len   : Nat
deriving Repr, DecidableEq

/-- `IterList::new()`: empty list, null cursor, both counters zero. -/
def IterList.new (T : Type) : IterList T :=
  { left := [], cur := none, right := [], index := 0, len := 0 }

/-- The element sequence front-to-back. -/
def toList {T : Type} (l : IterList T) : List T :=
  l.left.reverse ++ l.cur.toList ++ l.right

/-- `IterList::insert_next`: wire a fresh node between the cursor node and
its successor; on a null cursor, publish the node with a single CAS from
null, whose outcome is the `casWon` parameter — on failure the element is
unboxed and returned.  `len` is bumped only after successful linkage. -/
def insert_next {T : Type} (l : IterList T) (elem : T) (casWon : Bool) :
    Except T Unit × IterList T :=
  match l.cur with
  | some _ => (.ok (), { l with right := elem :: l.right, len := wadd l.len 1 })
  | none =>
      if casWon then
        (.ok (), { l with cur := some elem, len := wadd l.len 1 })
      else
        (.error elem, l)

/-- `IterList::insert_prev`: mirror image of `insert_next`; additionally
bumps `index` (the cursor's distance from the front grew by one). -/
def insert_prev {T : Type} (l : IterList T) (elem : T) (casWon : Bool) :
    Except T Unit × IterList T :=
  match l.cur with
  | some _ =>
      (.ok (), { l with left := elem :: l.left,
                        index := wadd l.index 1, len := wadd l.len 1 })
  | none =>
      if casWon then
        (.ok (), { l with cur := some elem, len := wadd l.len 1 })
      else
        (.error elem, l)

/-- `IterList::advance`: if the cursor node has a successor, CAS the
cursor onto it and bump `index`; on a null cursor or a missing successor
report `Ok(false)` without mutating.  Single-threaded the CAS succeeds, so
the `Err` outcome of the source is unreachable here. -/
def advance {T : Type} (l : IterList T) : Except Unit Bool × IterList T :=
  match l.cur, l.right with
  | some c, n :: rest =>
      (.ok true, { left := c :: l.left, cur := some n, right := rest,
                   index := wadd l.index 1, len := l.len })
  | _, _ => (.ok false, l)

/-- `IterList::retreat`: mirror image of `advance`, moving onto the
predecessor and decrementing `index` (wrapping `fetch_sub`). -/
def retreat {T : Type} (l : IterList T) : Except Unit Bool × IterList T :=
  match l.cur, l.left with
  | some c, p :: rest =>
      (.ok true, { left := rest, cur := some p, right := c :: l.right,
                   index := wsub l.index 1, len := l.len })
  | _, _ => (.ok false, l)

/-- `IterList::push_next`: if `current` is null, plain `insert_next`
reported as `Ok(true)`; otherwise `insert_next` then `advance`, where the
source maps any `Ok` of the advance to `Ok(true)` and an `Err` to
`Ok(false)`. -/
def push_next {T : Type} (l : IterList T) (elem : T) (casWon : Bool) :
    Except T Bool × IterList T :=
  match l.cur with
  | none =>
      match insert_next l elem casWon with
      | (.ok _, l') => (.ok true, l')
      | (.error e, l') => (.error e, l')
  | some _ =>
      match insert_next l elem casWon with
      | (.error e, l') => (.error e, l')
      | (.ok _, l') =>
          match advance l' with
          | (.ok _, l2) => (.ok true, l2)
          | (.error _, l2) => (.ok false, l2)

/-- `IterList::push_prev`: mirror image of `push_next`. -/
def push_prev {T : Type} (l : IterList T) (elem : T) (casWon : Bool) :
    Except T Bool × IterList T :=
  match l.cur with
  | none =>
      match insert_prev l elem casWon with
      | (.ok _, l') => (.ok true, l')
      | (.error e, l') => (.error e, l')
  | some _ =>
      match insert_prev l elem casWon with
      | (.error e, l') => (.error e, l')
      | (.ok _, l') =>
          match retreat l' with
          | (.ok _, l2) => (.ok true, l2)
          | (.error _, l2) => (.ok false, l2)

/-- The `while let` loop of `move_to_front`: one iteration per `prev`
hop, counting the hops.  Arguments mirror the zipper: remaining left
nodes, cursor element, right nodes, hop count. -/
def toFrontLoop {T : Type} : List T → T → List T → Nat → Nat × List T × T × List T
  | [], c, r, off => (off, [], c, r)
  | p :: ls, c, r, off => toFrontLoop ls p (c :: r) (off + 1)

/-- `IterList::move_to_front`: store 0 into `index` (unconditionally,
before the walk), then hop along `prev` links until none remain; returns
the number of hops. -/
def move_to_front {T : Type} (l : IterList T) : Nat × IterList T :=
  match l.cur with
  | none => (0, { l with index := 0 })
  | some c =>
      match toFrontLoop l.left c l.right 0 with
      | (off, lft, c', r) =>
          (off, { left := lft, cur := some c', right := r, index := 0, len := l.len })

/-- The `while let` loop of `move_to_back`: one iteration per `next` hop. -/
def toBackLoop {T : Type} : List T → T → List T → Nat → Nat × List T × T × List T
  | [], c, lft, off => (off, lft, c, [])
  | n :: rs, c, lft, off => toBackLoop rs n (c :: lft) (off + 1)

/-- `IterList::move_to_back`: store `len - 1` into `index` — a plain
`usize` subtraction that wraps when `len == 0` — then hop along `next`
links until none remain; returns the number of hops. -/
def move_to_back {T : Type} (l : IterList T) : Nat × IterList T :=
  match l.cur with
  | none => (0, { l with index := wsub l.len 1 })
  | some c =>
      match toBackLoop l.right c l.left 0 with
      | (off, lft, c', r) =>
          (off, { left := lft, cur := some c', right := r,
                  index := wsub l.len 1, len := l.len })

/-- The `for _ in 0..count` loop of `move_to` / `move_by` over `advance`:
returns early with the step's outcome on `Ok(false)` or `Err`. -/
def advanceLoop {T : Type} : Nat → IterList T → Except Unit Bool × IterList T
  | 0, l => (.ok true, l)
  | n + 1, l =>
      match advance l with
      | (.ok true, l') => advanceLoop n l'
      | (.ok false, l') => (.ok false, l')
      | (.error e, l') => (.error e, l')

/-- The `for _ in 0..count` loop of `move_to` / `move_by` over `retreat`. -/
def retreatLoop {T : Type} : Nat → IterList T → Except Unit Bool × IterList T
  | 0, l => (.ok true, l)
  | n + 1, l =>
      match retreat l with
      | (.ok true, l') => retreatLoop n l'
      | (.ok false, l') => (.ok false, l')
      | (.error e, l') => (.error e, l')

/-- `IterList::move_to`: compares the stored `index` with the target.
Note the loop bound: in BOTH branches the source computes
`index - self.index` (target minus stored), so in the `Greater` branch —
stored index above the target — the `usize` subtraction wraps to a huge
iteration count (`wsub` here), and the loop only stops at the front
boundary. -/
def move_to {T : Type} (l : IterList T) (index : Nat) :
    Except Unit Bool × IterList T :=
  if l.index > index then
    retreatLoop (wsub index l.index) l
  else if l.index < index then
    advanceLoop (wsub index l.index) l
  else
    (.ok true, l)

/-- `IterList::move_by`: advance `offset` times when positive, retreat
`-offset` times when negative. -/
def move_by {T : Type} (l : IterList T) (offset : Int) :
    Except Unit Bool × IterList T :=
  if offset > 0 then advanceLoop offset.toNat l
  else if offset < 0 then retreatLoop (-offset).toNat l
  else (.ok true, l)

/-- `IterList::get`.  The source's "bounds check"
`offset.checked_abs().and_then(|s| (s > index).into()).and_then(|_| (index + offset > len).into()).ok_or(())?`
resolves `.into()` through `impl From<T> for Option<T>`, i.e. to
`Some(bool)` — the two comparisons are computed and discarded, and the
chain is `None` (hence `Err(())`) exactly when `checked_abs` fails, i.e.
at `offset == isize::MIN`.  Then a null cursor is `Err(())`; offset `0`
returns `get_cursor()`; otherwise the walk takes `|offset|` hops along
`next`/`prev`, staying put once the pointer is null, which lands on the
`(|offset| - 1)`-th entry of `right`/`left` or `none` past the end.  The
optimistic re-read of `current` never fails single-threaded. -/
def get {T : Type} (l : IterList T) (offset : Int) : Except Unit (Option T) :=
  if offset = isizeMin then .error ()
  else
    match l.cur with
    | none => .error ()
    | some c =>
        if offset = 0 then .ok (some c)
        else if offset > 0 then .ok (l.right.get? (offset.toNat - 1))
        else .ok (l.left.get? ((-offset).toNat - 1))

/-- `IterList::get_mut`: body identical to `get` up to `&mut`; the
returned position is the same. -/
def get_mut {T : Type} (l : IterList T) (offset : Int) : Except Unit (Option T) :=
  if offset = isizeMin then .error ()
  else
    match l.cur with
    | none => .error ()
    | some c =>
        if offset = 0 then .ok (some c)
        else if offset > 0 then .ok (l.right.get? (offset.toNat - 1))
        else .ok (l.left.get? ((-offset).toNat - 1))

/-- `IterList::consume_forward`: unlink and return the cursor node.
`len` is decremented first (wrapping `fetch_sub`).  With a successor the
cursor moves onto it and the flag is `true`; otherwise the cursor parks on
the predecessor (null if none) and the flag is `false` — note the index
decrement on this branch is commented out in the source, so `index` is
left untouched in both branches.  Null cursor: `None`, no change. -/
def consume_forward {T : Type} (l : IterList T) :
    Option ((T × Bool) × IterList T) :=
  l.cur.map fun c =>
    match l.right with
    | next :: rest =>
        ((c, true), { left := l.left, cur := some next, right := rest,
                      index := l.index, len := wsub l.len 1 })
    | [] =>
        ((c, false), { left := l.left.tail, cur := l.left.head?, right := [],
                       index := l.index, len := wsub l.len 1 })

/-- `IterList::consume_backward`: mirror image, except that here `index`
IS decremented — unconditionally, before the boundary check, so at the
front (no predecessor) the wrapping `fetch_sub` takes `index` from 0 to
`2^64 - 1`. -/
def consume_backward {T : Type} (l : IterList T) :
    Option ((T × Bool) × IterList T) :=
  l.cur.map fun c =>
    match l.left with
    | prev :: rest =>
        ((c, true), { left := rest, cur := some prev, right := l.right,
                      index := wsub l.index 1, len := wsub l.len 1 })
    | [] =>
        ((c, false), { left := [], cur := l.right.head?, right := l.right.tail,
                       index := wsub l.index 1, len := wsub l.len 1 })

/-- `IterList::replace_cursor`: on a null cursor delegate to
`insert_next` and report `None`; otherwise swap the element in place. -/
def replace_cursor {T : Type} (l : IterList T) (elem : T) (casWon : Bool) :
    Except T (Option T) × IterList T :=
  match l.cur with
  | none =>
      match insert_next l elem casWon with
      | (.ok _, l') => (.ok none, l')
      | (.error e, l') => (.error e, l')
  | some c => (.ok (some c), { l with cur := some elem })

/-- `IterList::split_after`: requires a cursor node with a successor.
The new list takes the tail chain with its cursor on the first node of it
(`index` stays 0 from `new()`), `new.len = len - index - 1` (two plain
`usize` subtractions), and the old list keeps `len - new.len`.  The link
between the cursor node and its old successor is severed on both sides.
Returns the pair (new list, updated original). -/
def split_after {T : Type} (l : IterList T) :
    Option (IterList T × IterList T) :=
  match l.cur, l.right with
  | some _, next :: rest =>
      let newLen := wsub (wsub l.len l.index) 1
      some ({ left := [], cur := some next, right := rest,
              index := 0, len := newLen },
            { l with right := [], len := wsub l.len newLen })
  | _, _ => none

/-- `IterList::split_before`: requires a cursor node with a predecessor.
The new list takes the head chain with its cursor on `prev` — the LAST
node of that chain — with `new.len = index` and
`new.index = new.len - 1` (plain `usize` subtraction); the original keeps
`len - new.len` and resets its `index` to 0. -/
def split_before {T : Type} (l : IterList T) :
    Option (IterList T × IterList T) :=
  match l.cur, l.left with
  | some _, prev :: rest =>
      let newLen := l.index
      some ({ left := rest, cur := some prev, right := [],
              index := wsub newLen 1, len := newLen },
            { l with left := [], index := 0, len := wsub l.len newLen })
  | _, _ => none

/-- `IterList::from(Vec<T>)`: fold `push_next` over the elements starting
from `new()` (the `unwrap_unchecked` is sound single-threaded: the CAS
wins), then `move_to_front`. -/
def fromVec {T : Type} (xs : List T) : IterList T :=
  (move_to_front (xs.foldl (fun l e => (push_next l e true).2) (IterList.new T))).2

/-- Number of nodes reachable from the cursor; every `consume_*` removes
exactly one, so it bounds the drain loops below. -/
def size {T : Type} (l : IterList T) : Nat :=
  l.left.length + l.cur.toList.length + l.right.length

/-- The `while self.consume_backward().is_some() {}` drain of
`Iterator::next`, with enough fuel to reach the `None` (each successful
step shrinks `size` by one, so `size l` suffices). -/
def drainBackwardFuel {T : Type} : Nat → IterList T → IterList T
  | 0, l => l
  | n + 1, l =>
      match consume_backward l with
      | none => l
      | some (_, l') => drainBackwardFuel n l'

/-- `<IterList as Iterator>::next`: `consume_forward`, and when its flag
is `false` (boundary reached) drain the opposite direction until the list
yields nothing. -/
def iterNext {T : Type} (l : IterList T) : Option T × IterList T :=
  match consume_forward l with
  | none => (none, l)
  | some ((e, b), l') =>
      if b then (some e, l')
      else (some e, drainBackwardFuel (size l') l')

/-- Repeated `next()` calls (a `for`/`fold` over the list), collecting the
yielded elements; `fuel` bounds the number of calls. -/
def drainFuel {T : Type} : Nat → IterList T → List T × IterList T
  | 0, l => ([], l)
  | n + 1, l =>
      match iterNext l with
      | (none, l') => ([], l')
      | (some e, l') =>
          match drainFuel n l' with
          | (rest, lf) => (e :: rest, lf)

/-- The loop of `impl Debug for IterList`: `i` runs from 0 while
`i < len`, printing `get(base + i)` when it is `Ok(Some(_))` and a
`", "` separator after every position except the last.  `fuel` stands for
`len - i`; the list itself is not mutated by the loop. -/
def debugLoop {T : Type} (reprF : T → String) (l : IterList T) (base : Int) :
    Nat → Nat → String
  | _, 0 => ""
  | i, fuel + 1 =>
      let s := match get l (base + (i : Int)) with
               | .ok (some e) => reprF e
               | _ => ""
      let sep := if i + 1 < l.len then ", " else ""
      s ++ sep ++ debugLoop reprF l base (i + 1) fuel

/-- `impl Debug for IterList`: `"["`, then the loop above with
`base = -(index as isize)`, then `"]"`.  Faithful for `len < 2^63`
(so that `len as isize` and `-(index as isize)` do not overflow). -/
def debugFmt {T : Type} (reprF : T → String) (l : IterList T) : String :=
  "[" ++ debugLoop reprF l (-(l.index : Int)) 0 l.len ++ "]"

/-- Modelled from the spec: "the sequence is printed as `[e0, e1, ...,
en]` in front-to-back order ..., comma-space separated, no trailing
separator" — the spec-side rendering that claim C6 compares the `Debug`
implementation against. -/
def specJoin : List String → String
  | [] => ""
  | [s] => s
  | s :: rest => s ++ ", " ++ specJoin rest

/-- Modelled from the spec: the full spec-side rendering of a sequence of
already-rendered elements. -/
def specRender (elems : List String) : String :=
  "[" ++ specJoin elems ++ "]"

/-- The cursor-state invariant of spec §3: `current` is absent exactly
when the list is empty, and on a non-empty list the index is strictly
below the length. -/
def cursorInvariant {T : Type} (l : IterList T) : Prop :=
  (l.cur = none ↔ l.len = 0) ∧ (0 < l.len → l.index < l.len)

instance {T : Type} [DecidableEq T] (l : IterList T) :
    Decidable (cursorInvariant l) := by
  unfold cursorInvariant; infer_instance

/-- Well-formedness of a list state: the counters agree with the chain
(`index` is the cursor's distance from the front, `len` the number of
nodes), a null cursor means no reachable nodes, and `len` fits in a
machine word.  Every state reachable from `new()` by boundary-respecting
operations satisfies this. -/
def WF {T : Type} (l : IterList T) : Prop :=
  l.index = l.left.length ∧ l.len = (toList l).length ∧
    (l.cur = none → l.left = [] ∧ l.right = []) ∧ l.len < W

instance {T : Type} [DecidableEq T] (l : IterList T) : Decidable (WF l) := by
  unfold WF; infer_instance

/-!
For claim C9 (a frame property: `Cursor` traversal never touches the
`IterList`'s own cells) the zipper view is too coarse — the Rust `Cursor`
shares the node graph with its list but owns separate `current`/`index`
cells.  So here the memory is modelled explicitly: nodes live at `Nat`
addresses, the `next`/`prev` fields of the node at each address are read
through the heap maps, and the list's three cells sit beside the cursor's
two.  Each `Cursor` method of the source reads the heap and reads/writes
`self.current` / `self.index` only; the translations below mirror the
method bodies statement by statement.
-/

/-- The shared memory: the node heap (link fields and elements, read at
`Nat` addresses; `none` is a null link) plus the `IterList`'s three atomic
cells and the `Cursor`'s two. -/
structure World (T : Type) where
  next : Nat → Option Nat
  prev : Nat → Option Nat
  elemAt : Nat → T
  listCurrent : Option Nat
  listIndex : Nat
  listLen : Nat
  curCurrent : Option Nat
  curIndex : Nat

/-- `<Cursor as Iterator>::next`: on a non-null `self.current`, store its
`next` link into `self.current`, bump `self.index`, and yield the
element. -/
def cursorNext {T : Type} (w : World T) : Option T × World T :=
  match w.curCurrent with
  | none => (none, w)
  | some p =>
      (some (w.elemAt p),
       { w with curCurrent := w.next p, curIndex := wadd w.curIndex 1 })

/-- `Cursor::advance`: like `IterList::advance`, on the cursor's own
cells; single-threaded the CAS on `self.current` succeeds. -/
def cursorAdvance {T : Type} (w : World T) : Except Unit Bool × World T :=
  match w.curCurrent with
  | none => (.ok false, w)
  | some p =>
      match w.next p with
      | none => (.ok false, w)
      | some n =>
          (.ok true, { w with curCurrent := some n, curIndex := wadd w.curIndex 1 })

/-- `Cursor::retreat`: mirror image of `cursorAdvance`. -/
def cursorRetreat {T : Type} (w : World T) : Except Unit Bool × World T :=
  match w.curCurrent with
  | none => (.ok false, w)
  | some p =>
      match w.prev p with
      | none => (.ok false, w)
      | some q =>
          (.ok true, { w with curCurrent := some q, curIndex := wsub w.curIndex 1 })

/-- The `for i in 0..count` loop of `Cursor::move_to` / `move_by` over
`advance`, returning `Ok(i)` / `Err(i)` on an early exit. -/
def cursorAdvanceLoop {T : Type} :
    Nat → Nat → World T → (Except Nat Nat × World T)
  | 0, i, w => (.ok i, w)
  | n + 1, i, w =>
      match cursorAdvance w with
      | (.ok true, w') => cursorAdvanceLoop n (i + 1) w'
      | (.ok false, w') => (.ok i, w')
      | (.error _, w') => (.error i, w')

/-- The same loop over `retreat`. -/
def cursorRetreatLoop {T : Type} :
    Nat → Nat → World T → (Except Nat Nat × World T)
  | 0, i, w => (.ok i, w)
  | n + 1, i, w =>
      match cursorRetreat w with
      | (.ok true, w') => cursorRetreatLoop n (i + 1) w'
      | (.ok false, w') => (.ok i, w')
      | (.error _, w') => (.error i, w')

/-- `Cursor::move_to`: same shape (and same wrapped loop bound
`index - self.index` in the `Greater` branch) as the list's `move_to`,
over the cursor's own cells; the final `Ok(index)` of the fall-through
path included. -/
def cursorMoveTo {T : Type} (w : World T) (index : Nat) :
    Except Nat Nat × World T :=
  if w.curIndex > index then
    match cursorRetreatLoop (wsub index w.curIndex) 0 w with
    | (.ok i, w') =>
        (if i = wsub index w.curIndex then (.ok index, w') else (.ok i, w'))
    | r => r
  else if w.curIndex < index then
    match cursorAdvanceLoop (wsub index w.curIndex) 0 w with
    | (.ok i, w') =>
        (if i = wsub index w.curIndex then (.ok index, w') else (.ok i, w'))
    | r => r
  else (.ok index, w)

/-- `Cursor::move_by`: advance `offset` times / retreat `-offset` times. -/
def cursorMoveBy {T : Type} (w : World T) (offset : Int) :
    Except Nat Nat × World T :=
  if offset > 0 then cursorAdvanceLoop offset.toNat 0 w
  else if offset < 0 then cursorRetreatLoop (-offset).toNat 0 w
  else (.ok 0, w)

/-- The `while let` loop of `Cursor::move_to_front` over `prev` links;
`fuel` bounds the hops (the heap map is arbitrary here, so the model
carries the bound explicitly; the frame property is independent of it). -/
def cursorFrontLoop {T : Type} : Nat → Nat → World T → Nat × World T
  | 0, off, w => (off, w)
  | fuel + 1, off, w =>
      match w.curCurrent with
      | none => (off, w)
      | some p =>
          match w.prev p with
          | none => (off, w)
          | some q => cursorFrontLoop fuel (off + 1) { w with curCurrent := some q }

/-- `Cursor::move_to_front`: store 0 into `self.index` first, then hop
along `prev` links. -/
def cursorMoveToFront {T : Type} (fuel : Nat) (w : World T) : Nat × World T :=
  cursorFrontLoop fuel 0 { w with curIndex := 0 }

/-- The `while let` loop of `Cursor::move_to_back` over `next` links. -/
def cursorBackLoop {T : Type} : Nat → Nat → World T → Nat × World T
  | 0, off, w => (off, w)
  | fuel + 1, off, w =>
      match w.curCurrent with
      | none => (off, w)
      | some p =>
          match w.next p with
          | none => (off, w)
          | some n => cursorBackLoop fuel (off + 1) { w with curCurrent := some n }

/-- `Cursor::move_to_back`: hop along `next` links, then store the hop
count into `self.index`. -/
def cursorMoveToBack {T : Type} (fuel : Nat) (w : World T) : Nat × World T :=
  match cursorBackLoop fuel 0 w with
  | (off, w') => (off, { w' with curIndex := off })

/-- The read-only walk of `Cursor::get`: `|offset|` hops along
`next`/`prev` from a local pointer variable, staying put once null. -/
def cursorWalk {T : Type} (w : World T) (step : Nat → Option Nat) :
    Nat → Option Nat → Option Nat
  | 0, p => p
  | n + 1, p =>
      match p with
      | none => none
      | some q => cursorWalk w step n (step q)

/-- `Cursor::get` (and `get_mut`, identical up to `&mut`): the
`checked_abs` chain errs at `isize::MIN`, a null `self.current` errs,
offset 0 returns the cursor element, otherwise the walk; everything is
done on local variables — the world is left exactly as it was. -/
def cursorGet {T : Type} (w : World T) (offset : Int) :
    Except Unit (Option T) × World T :=
  (if offset = isizeMin then .error ()
   else
     match w.curCurrent with
     | none => .error ()
     | some p =>
         if offset = 0 then .ok (some (w.elemAt p))
         else if offset > 0 then
           .ok ((cursorWalk w w.next offset.toNat (some p)).map w.elemAt)
         else
           .ok ((cursorWalk w w.prev (-offset).toNat (some p)).map w.elemAt),
   w)

/-- The `Cursor` traversal operations named by claim C9, with their
arguments (`fuel` for the two unbounded walks). -/
inductive CursorOp where
  | next : CursorOp
  | advance : CursorOp
  | retreat : CursorOp
  | moveToFront (fuel : Nat) : CursorOp
  | moveToBack (fuel : Nat) : CursorOp
  | moveTo (index : Nat) : CursorOp
  | moveBy (offset : Int) : CursorOp
  | get (offset : Int) : CursorOp

/-- Run one cursor operation (discarding its return value). -/
def applyOp {T : Type} (op : CursorOp) (w : World T) : World T :=
  match op with
  | .next => (cursorNext w).2
  | .advance => (cursorAdvance w).2
  | .retreat => (cursorRetreat w).2
  | .moveToFront fuel => (cursorMoveToFront fuel w).2
  | .moveToBack fuel => (cursorMoveToBack fuel w).2
  | .moveTo i => (cursorMoveTo w i).2
  | .moveBy o => (cursorMoveBy w o).2
  | .get o => (cursorGet w o).2

/-- Run a sequence of cursor operations. -/
def applyOps {T : Type} (ops : List CursorOp) (w : World T) : World T :=
  ops.foldl (fun w op => applyOp op w) w

/-! ### Arithmetic helpers for the wrapping counters -/

theorem W_eq : W = 18446744073709551616 := by norm_num [W]

theorem wadd_small (a b : Nat) (h : a + b < W) : wadd a b = a + b := by
  simp only [wadd, W_eq] at *; omega

theorem wsub_small (a b : Nat) (hba : b ≤ a) (ha : a < W) : wsub a b = a - b := by
  simp only [wsub, W_eq] at *; omega

theorem wadd_one_ne (a : Nat) : wadd a 1 ≠ a := by
  simp only [wadd, W_eq]; omega

theorem wsub_wadd_one (a : Nat) (h : a < W) : wsub (wadd a 1) 1 = a := by
  simp only [wadd, wsub, W_eq] at *; omega

theorem wadd_wsub_one (a : Nat) (h : a < W) : wadd (wsub a 1) 1 = a := by
  simp only [wadd, wsub, W_eq] at *; omega

/-! ### Claim theorems -/

deriving instance DecidableEq for Except

/-- C10: calling `move_to_back` on an empty list returns 0 and leaves the
cursor absent, but first stores `len() - 1` into `index` computed in
`usize` arithmetic with `len() == 0`, so afterwards `index()` holds the
underflowed value `2^64 - 1` under wrapping semantics. -/
theorem move_to_back_empty_underflows {T : Type} (l : IterList T)
    (hcur : l.cur = none) (hlen : l.len = 0) :
    move_to_back l = (0, { l with index := 2 ^ 64 - 1 }) := by
  have : wsub l.len 1 = 2 ^ 64 - 1 := by
    simp only [hlen, wsub, W_eq]; norm_num
  simp [move_to_back, hcur, this]

theorem move_to_back_empty_underflows_witness :
    move_to_back (IterList.new Nat) =
      (0, { left := [], cur := none, right := [], index := 2 ^ 64 - 1, len := 0 }) :=
  move_to_back_empty_underflows (IterList.new Nat) rfl rfl

/-- C1 (failing input): the cursor-state invariant of spec §3 is NOT
preserved by every operation.  From `[1, 2, 3]` with the cursor on the
front element, `consume_backward` wraps `index` to `2^64 - 1` while two
elements remain; and from the same list with the cursor moved to the back,
`consume_forward` parks the cursor on the predecessor without decrementing
`index`, leaving `index() == len() == 2`. -/
theorem consume_at_boundary_breaks_invariant :
    cursorInvariant (fromVec [1, 2, 3]) ∧
    consume_backward (fromVec [1, 2, 3]) =
      some ((1, false),
        { left := [], cur := some 2, right := [3], index := 2 ^ 64 - 1, len := 2 }) ∧
    ¬ cursorInvariant
        { left := [], cur := some 2, right := [3],
          index := 2 ^ 64 - 1, len := 2 } ∧
    consume_forward (move_to_back (fromVec [1, 2, 3])).2 =
      some ((3, false),
        { left := [1], cur := some 2, right := [], index := 2, len := 2 }) ∧
    ¬ cursorInvariant
        ({ left := [1], cur := some 2, right := [], index := 2, len := 2 } :
          IterList Nat) := by
  refine ⟨by decide, by decide, ?_, by decide, ?_⟩ <;> decide

/-- C2 (failing input): `move_to(k)` with the target behind the cursor
does not succeed.  On `[1, 2, 3]` with the cursor at the back
(`index() == 2`), `move_to(1)` computes its loop bound as the wrapped
`usize` difference `1 - 2`, retreats past the target to the front
boundary, and returns the "not fully moved" outcome with `index() == 0`
instead of succeeding with `index() == 1`. -/
theorem move_to_behind_cursor_misses_target :
    move_to (move_to_back (fromVec [1, 2, 3])).2 1 =
      (.ok false, { left := [], cur := some 1, right := [2, 3], index := 0, len := 3 }) ∧
    wsub 1 2 = 2 ^ 64 - 1 := by
  constructor <;> decide

/-- C3 (counterexample): on `[1, 2, 3]` with the cursor moved to index 2,
`split_before` transfers the head sub-chain `[1, 2]`, but the new list's
cursor sits on `2` with `index() == 1` — the LAST node of that sub-chain,
not the first node `1` at index 0 as the claim states. -/
theorem split_before_cursor_not_on_first_node :
    split_before (move_to (fromVec [1, 2, 3]) 2).2 =
      some ({ left := [1], cur := some 2, right := [], index := 1, len := 2 },
            { left := [], cur := some 3, right := [], index := 0, len := 1 }) ∧
    toList { left := [1], cur := some 2, right := ([] : List Nat),
             index := 1, len := 2 } = [1, 2] ∧
    (some 2 : Option Nat) ≠ some 1 ∧ (1 : Nat) ≠ 0 := by
  refine ⟨by decide, by decide, by decide, by decide⟩

/-- C4 (counterexample): `get` does not return the non-error absent value
on every out-of-range offset.  On the empty list every offset is out of
range, yet `get(0)` returns the interference error (`current` is null and
`load_ptr(...).ok_or(())?` errs); and on `[1, 2, 3]` the out-of-range
offset `isize::MIN` errs because `checked_abs` fails. -/
theorem get_out_of_range_can_err :
    get (IterList.new Nat) 0 = .error () ∧
    get (fromVec [1, 2, 3]) isizeMin = .error () ∧
    (Except.error () : Except Unit (Option Nat)) ≠ .ok none := by
  refine ⟨by decide, by decide, by decide⟩

theorem get_eq {T : Type} (l : IterList T) (c : T) (hc : l.cur = some c)
    (offset : Int) (hmin : offset ≠ isizeMin) :
    get l offset = .ok (if offset = 0 then some c
                        else if offset > 0 then l.right.get? (offset.toNat - 1)
                        else l.left.get? ((-offset).toNat - 1)) := by
  unfold get
  rw [if_neg hmin, hc]
  dsimp only
  split_ifs <;> rfl

theorem get_mut_eq {T : Type} (l : IterList T) (c : T) (hc : l.cur = some c)
    (offset : Int) (hmin : offset ≠ isizeMin) :
    get_mut l offset = .ok (if offset = 0 then some c
                            else if offset > 0 then l.right.get? (offset.toNat - 1)
                            else l.left.get? ((-offset).toNat - 1)) := by
  unfold get_mut
  rw [if_neg hmin, hc]
  dsimp only
  split_ifs <;> rfl

/-- Folding `push_next` over `rest` from an at-back state (cursor on `c`,
nothing to the right, counters exact): the pushed elements pile up behind
the cursor, which ends on the last pushed element. -/
theorem pushAll {T : Type} :
    ∀ (rest acc : List T) (c : T) (n : Nat), n = acc.length →
      n + 1 + rest.length < W →
      rest.foldl (fun l e => (push_next l e true).2)
          ⟨acc, some c, [], n, n + 1⟩ =
        ⟨((c :: rest).dropLast).reverse ++ acc, some (rest.getLastD c), [],
          n + rest.length, n + 1 + rest.length⟩ := by
  intro rest
  induction rest with
  | nil => intro acc c n hn h; simp
  | cons x rs ih =>
      intro acc c n hn h
      simp only [List.length_cons] at h
      have hstep :
          (push_next (⟨acc, some c, [], n, n + 1⟩ : IterList T) x true).2 =
            ⟨c :: acc, some x, [], n + 1, n + 1 + 1⟩ := by
        simp [push_next, insert_next, advance,
          wadd_small (n + 1) 1 (by omega), wadd_small n 1 (by omega)]
      have e1 : ((c :: x :: rs).dropLast).reverse ++ acc
          = ((x :: rs).dropLast).reverse ++ (c :: acc) := by
        rw [List.dropLast_cons₂, List.reverse_cons]
        simp
      rw [List.foldl_cons, hstep,
        ih (c :: acc) x (n + 1) (by simp [hn]) (by omega),
        e1, List.getLastD_cons c x rs]
      simp only [IterList.mk.injEq, List.length_cons, true_and, and_true]
      omega

/-- The front-walk loop in closed form: it empties the left list, parks
the cursor on the front node, and piles everything else up on the right. -/
theorem toFrontLoop_spec {T : Type} :
    ∀ (lft : List T) (c : T) (r : List T) (off : Nat),
      toFrontLoop lft c r off =
        (off + lft.length, [], lft.getLastD c, ((c :: lft).dropLast).reverse ++ r) := by
  intro lft
  induction lft with
  | nil => intro c r off; simp [toFrontLoop]
  | cons p ls ih =>
      intro c r off
      rw [toFrontLoop, ih p (c :: r) (off + 1), List.getLastD_cons c p ls,
        List.dropLast_cons₂, List.reverse_cons, List.append_assoc,
        List.singleton_append]
      simp only [Prod.mk.injEq, and_true, true_and, List.length_cons]
      omega

/-- `IterList::from(Vec<T>)` produces the whole sequence with the cursor
on the front element and exact counters. -/
theorem fromVec_eq {T : Type} (xs : List T) (h : xs.length < W) :
    fromVec xs = ⟨[], xs.head?, xs.tail, 0, xs.length⟩ := by
  cases xs with
  | nil => simp [fromVec, IterList.new, move_to_front]
  | cons x rest =>
      have hfirst :
          (push_next (IterList.new T) x true).2 =
            (⟨[], some x, [], 0, 0 + 1⟩ : IterList T) := by
        simp [push_next, insert_next, IterList.new, wadd_small 0 1 (by simp [W_eq])]
      have hfold := pushAll rest ([] : List T) x 0 rfl (by simp at h ⊢; omega)
      rw [fromVec, List.foldl_cons, hfirst, hfold]
      cases rest with
      | nil => simp [move_to_front, toFrontLoop]
      | cons y rs =>
          have hne : (y :: rs) ≠ ([] : List T) := by simp
          have hLne : ((x :: (y :: rs).dropLast).reverse : List T) ≠ [] := by simp
          have hg : (y :: rs).getLastD x = (y :: rs).getLast hne := by
            rw [List.getLastD_eq_getLast?, List.getLast?_eq_getLast (y :: rs) hne]
            rfl
          have hcur2 :
              ((x :: (y :: rs).dropLast).reverse).getLastD ((y :: rs).getLastD x)
                = x := by
            rw [List.getLastD_eq_getLast?, List.getLast?_reverse]
            rfl
          have hright2 :
              (((((y :: rs).getLastD x)) ::
                  (x :: (y :: rs).dropLast).reverse).dropLast).reverse ++
                  ([] : List T) = y :: rs := by
            rw [List.append_nil, List.dropLast_cons_of_ne_nil hLne,
              List.dropLast_reverse]
            simp only [List.tail_cons, List.reverse_cons, List.reverse_reverse]
            rw [hg, List.dropLast_concat_getLast hne]
          rw [List.dropLast_cons₂, List.append_nil] at hfold ⊢
          simp only [move_to_front, toFrontLoop_spec]
          rw [hcur2, hright2]
          simp only [IterList.mk.injEq, List.length_cons, List.head?_cons,
            List.tail_cons, true_and, and_true]
          omega

/-- Draining a front-cursor list by repeated `next()`: each call removes
the front element; the last removal hits the boundary and the backward
drain finds nothing. -/
theorem drain_go {T : Type} :
    ∀ (rs : List T) (x : T) (idx : Nat), rs.length + 1 < W →
      drainFuel (rs.length + 1)
          (⟨[], some x, rs, idx, rs.length + 1⟩ : IterList T) =
        (x :: rs, ⟨[], none, [], idx, 0⟩) := by
  intro rs
  induction rs with
  | nil =>
      intro x idx h
      have hw : wsub 1 1 = 0 :=
        wsub_small 1 1 (by omega) (by simpa using h)
      simp [drainFuel, iterNext, consume_forward, drainBackwardFuel, size, hw]
  | cons r rs2 ih =>
      intro x idx h
      simp only [List.length_cons] at h ⊢
      have hw : wsub (rs2.length + 1 + 1) 1 = rs2.length + 1 :=
        wsub_small (rs2.length + 1 + 1) 1 (by omega) h
      have hstep :
          iterNext (⟨[], some x, r :: rs2, idx, rs2.length + 1 + 1⟩ : IterList T) =
            (some x, ⟨[], some r, rs2, idx, rs2.length + 1⟩) := by
        simp [iterNext, consume_forward, hw]
      rw [drainFuel, hstep]
      dsimp only
      rw [ih r idx (by omega)]

/-- C7: for every list constructed from a sequence (cursor on the front
element), repeatedly calling the forward iterator's `next` — i.e.
`consume_forward`, draining backward when it reports the boundary flag —
yields exactly the constructing elements in the same order and leaves the
list empty (the state of `new()`). -/
theorem forward_drain_yields_source {T : Type} (xs : List T)
    (h : xs.length < W) :
    drainFuel xs.length (fromVec xs) = (xs, IterList.new T) := by
  cases xs with
  | nil => rw [fromVec_eq _ h]; rfl
  | cons x rest =>
      rw [fromVec_eq _ h]
      simp only [List.head?_cons, List.tail_cons, List.length_cons]
      exact drain_go rest x 0 (by simpa using h)

theorem forward_drain_yields_source_witness :
    drainFuel (List.length [1, 2, 3]) (fromVec [1, 2, 3]) =
      ([1, 2, 3], IterList.new Nat) :=
  forward_drain_yields_source [1, 2, 3] (by decide)

/-- The whole `push_next` fold from `new()` in closed form. -/
theorem foldl_push_eq {T : Type} (x : T) (rest : List T)
    (h : rest.length + 1 < W) :
    (x :: rest).foldl (fun l e => (push_next l e true).2) (IterList.new T) =
      ⟨((x :: rest).dropLast).reverse, some (rest.getLastD x), [],
        rest.length, rest.length + 1⟩ := by
  have hfirst :
      (push_next (IterList.new T) x true).2 =
        (⟨[], some x, [], 0, 0 + 1⟩ : IterList T) := by
    simp [push_next, insert_next, IterList.new, wadd_small 0 1 (by simp [W_eq])]
  rw [List.foldl_cons, hfirst, pushAll rest ([] : List T) x 0 rfl (by omega)]
  simp only [IterList.mk.injEq, List.append_nil, Nat.zero_add, true_and, and_true]
  omega

/-- Mapping `getD` over the index range recovers the list. -/
theorem range'_map_getD {T : Type} (l : List T) (d : T) :
    (List.range' 0 l.length).map (fun j => l.getD j d) = l := by
  apply List.ext_getElem (by simp)
  intro i h1 h2
  simp only [List.getElem_map, List.getElem_range', Nat.zero_add, Nat.one_mul,
    one_mul]
  exact List.getD_eq_getElem l d h2

/-- The `Debug` loop in closed form: when every in-range offset resolves
to an element, the loop renders the elements at positions `i, i+1, ...`
joined by the comma-space separator. -/
theorem debugLoop_spec {T : Type} (reprF : T → String) (l : IterList T)
    (base : Int) (f : Nat → T) :
    ∀ (fuel i : Nat), i + fuel = l.len →
      (∀ j, i ≤ j → j < l.len → get l (base + (j : Int)) = .ok (some (f j))) →
      debugLoop reprF l base i fuel =
        specJoin (((List.range' i fuel).map f).map reprF) := by
  intro fuel
  induction fuel with
  | zero => intro i hi hj; rfl
  | succ fuel ih =>
      intro i hi hj
      rw [debugLoop, hj i (le_refl i) (by omega)]
      dsimp only
      cases fuel with
      | zero =>
          rw [if_neg (by omega : ¬ i + 1 < l.len)]
          rw [debugLoop, String.append_empty, String.append_empty]
          rfl
      | succ fuel2 =>
          rw [if_pos (by omega : i + 1 < l.len),
            ih (i + 1) (by omega) (fun j h1 h2 => hj j (by omega) h2)]
          rfl

/-- `get` on the state left by a sequence of pushes: offset `j - index`
resolves to the `j`-th pushed element. -/
theorem pushed_get {T : Type} (x : T) (rest : List T) (j : Nat)
    (hlen : rest.length < 2 ^ 63) (hj : j < rest.length + 1) :
    get (⟨((x :: rest).dropLast).reverse, some (rest.getLastD x), [],
          rest.length, rest.length + 1⟩ : IterList T)
        (-(rest.length : Int) + (j : Int)) =
      .ok (some ((x :: rest).getD j x)) := by
  have hmin : (-(rest.length : Int) + (j : Int)) ≠ isizeMin := by
    simp only [isizeMin]; omega
  rw [get_eq _ (rest.getLastD x) rfl _ hmin]
  by_cases hje : j = rest.length
  · subst hje
    rw [if_pos (show -(rest.length : Int) + (rest.length : Int) = 0 by omega)]
    have hgd : (x :: rest).getD rest.length x = rest.getLastD x := by
      rw [List.getD_eq_getElem (l := x :: rest) x (by simp),
        ← List.getLastD_cons x x rest, List.getLastD_eq_getLast?,
        List.getLast?_eq_getElem?]
      simp only [List.length_cons, Nat.add_sub_cancel]
      rw [List.getElem?_eq_getElem (by simp)]
      rfl
    rw [hgd]
  · have hjlt : j < rest.length := by omega
    rw [if_neg (by omega), if_neg (by omega)]
    have htn : (-(-(rest.length : Int) + (j : Int))).toNat - 1
        = rest.length - j - 1 := by omega
    rw [htn]
    have hD : ((x :: rest).dropLast).length = rest.length := by simp
    have hm : rest.length - j - 1 < ((x :: rest).dropLast).reverse.length := by
      simp [hD]; omega
    rw [List.get?_eq_getElem?, List.getElem?_reverse (by simpa using hm)]
    have hidx2 : ((x :: rest).dropLast).length - 1 - (rest.length - j - 1) = j := by
      rw [hD]; omega
    rw [hidx2, List.getElem?_eq_getElem (by rw [hD]; omega : j < ((x :: rest).dropLast).length)]
    rw [List.getElem_dropLast, List.getD_eq_getElem (l := x :: rest) x (by simp; omega)]

/-- C6: after any sequence of `push_next` calls starting from an empty
list, `len()` equals the number of pushed elements, and the `Debug`
rendering is exactly the pushed elements in insertion order, printed
front-to-back as `[e0, e1, ..., en]` with comma-space separators and no
trailing separator. -/
theorem push_render_in_order {T : Type} (reprF : T → String) (xs : List T)
    (h : xs.length ≤ 2 ^ 63) :
    (xs.foldl (fun l e => (push_next l e true).2) (IterList.new T)).len
        = xs.length ∧
    debugFmt reprF
        (xs.foldl (fun l e => (push_next l e true).2) (IterList.new T)) =
      specRender (xs.map reprF) := by
  cases xs with
  | nil => exact ⟨rfl, rfl⟩
  | cons x rest =>
      simp only [List.length_cons] at h
      rw [foldl_push_eq x rest (by simp [W_eq]; omega)]
      refine ⟨by simp, ?_⟩
      unfold debugFmt
      dsimp only
      rw [debugLoop_spec reprF _ (-(rest.length : Int))
            (fun j => (x :: rest).getD j x) (rest.length + 1) 0 (by simp)
            (fun j h0 hjl => pushed_get x rest j (by omega) hjl)]
      rw [show rest.length + 1 = (x :: rest).length from by simp,
        range'_map_getD (x :: rest) x]
      rfl

theorem push_render_in_order_witness :
    ([1, 2, 3].foldl (fun l e => (push_next l e true).2) (IterList.new Nat)).len
        = 3 ∧
    debugFmt (fun n => toString n)
        ([1, 2, 3].foldl (fun l e => (push_next l e true).2) (IterList.new Nat))
      = specRender ([1, 2, 3].map fun n => toString n) := by
  have h := push_render_in_order (fun n : Nat => toString n) [1, 2, 3]
    (by norm_num)
  simpa using h

/-- C3 (amended): on a non-empty list whose cursor has a successor
(respectively predecessor), `split_after` (respectively `split_before`)
transfers the tail (respectively head) sub-chain into a newly constructed
list — whose cursor is on the FIRST node of the tail sub-chain for
`split_after`, but on the LAST node of the head sub-chain (at index
`len - 1`) for `split_before` — with both lists' `len`/`index` adjusted so
the two lengths sum to the original length; and it returns nothing when
the list is empty or the cursor sits at the relevant boundary. -/
theorem split_correct {T : Type} (l : IterList T) (h : WF l) :
    (∀ c next rest, l.cur = some c → l.right = next :: rest →
      ∃ nw sf, split_after l = some (nw, sf) ∧
        toList nw = l.right ∧ nw.cur = some next ∧ nw.index = 0 ∧
        toList sf = l.left.reverse ++ [c] ∧
        nw.len = (toList nw).length ∧ sf.len = (toList sf).length ∧
        nw.len + sf.len = l.len ∧ sf.index = l.index) ∧
    ((l.cur = none ∨ l.right = []) → split_after l = none) ∧
    (∀ c prev rest, l.cur = some c → l.left = prev :: rest →
      ∃ nw sf, split_before l = some (nw, sf) ∧
        toList nw = l.left.reverse ∧ nw.cur = some prev ∧
        nw.index = nw.len - 1 ∧
        toList sf = c :: l.right ∧
        nw.len = (toList nw).length ∧ sf.len = (toList sf).length ∧
        nw.len + sf.len = l.len ∧ sf.index = 0) ∧
    ((l.cur = none ∨ l.left = []) → split_before l = none) := by
  obtain ⟨hidx, hlen, hnull, hW⟩ := h
  refine ⟨?_, ?_, ?_, ?_⟩
  · intro c next rest hcur hright
    have hlen' : l.len = l.left.length + 1 + l.right.length := by
      rw [hlen]; simp [toList, hcur]; omega
    have h1 : wsub l.len l.index = 1 + l.right.length := by
      rw [wsub_small l.len l.index (by omega) hW]; omega
    have h2 : wsub (wsub l.len l.index) 1 = l.right.length := by
      rw [h1, wsub_small (1 + l.right.length) 1 (by omega) (by omega)]; omega
    have h3 : wsub l.len l.right.length = l.left.length + 1 := by
      rw [wsub_small l.len l.right.length (by omega) hW]; omega
    refine ⟨{ left := [], cur := some next, right := rest, index := 0,
              len := wsub (wsub l.len l.index) 1 },
            { l with right := [],
                     len := wsub l.len (wsub (wsub l.len l.index) 1) },
            ?_, ?_, rfl, rfl, ?_, ?_, ?_, ?_, rfl⟩
    · simp [split_after, hcur, hright]
    · simp [toList, hright]
    · simp [toList, hcur]
    · simp [toList, h2, hright]
    · rw [h2, h3]
      simp [toList, hcur]
    · rw [h2, h3]
      dsimp only
      omega
  · intro hb
    rcases hb with hb | hb
    · cases hr : l.right <;> simp [split_after, hb, hr]
    · cases hc : l.cur <;> simp [split_after, hc, hb]
  · intro c prev rest hcur hleft
    have hlen' : l.len = l.left.length + 1 + l.right.length := by
      rw [hlen]; simp [toList, hcur]; omega
    have h3 : wsub l.len l.index = 1 + l.right.length := by
      rw [wsub_small l.len l.index (by omega) hW]; omega
    have hpos : 1 ≤ l.index := by rw [hidx, hleft]; simp
    have h4 : wsub l.index 1 = l.index - 1 := by
      rw [wsub_small l.index 1 hpos (by omega)]
    refine ⟨{ left := rest, cur := some prev, right := [],
              index := wsub l.index 1, len := l.index },
            { l with left := [], index := 0, len := wsub l.len l.index },
            ?_, ?_, rfl, ?_, ?_, ?_, ?_, ?_, rfl⟩
    · simp [split_before, hcur, hleft]
    · simp [toList, hleft]
    · simp [h4]
    · simp [toList, hcur]
    · simp [toList, hleft, hidx]
    · simp [toList, hcur, h3]; omega
    · rw [h3]
      dsimp only
      omega
  · intro hb
    rcases hb with hb | hb
    · cases hl : l.left <;> simp [split_before, hb, hl]
    · cases hc : l.cur <;> simp [split_before, hc, hb]

theorem split_correct_witness :
    ∃ nw sf, split_before (move_to (fromVec [1, 2, 3, 4]) 2).2 = some (nw, sf) := by
  obtain ⟨nw, sf, hs, _⟩ :=
    (split_correct (move_to (fromVec [1, 2, 3, 4]) 2).2 (by decide)).2.2.1
      3 2 [1] (by decide) (by decide)
  exact ⟨nw, sf, hs⟩

/-- C4 (amended): on a non-empty list, `get` and `get_mut` with an
out-of-range offset other than `isize::MIN` return the non-error absent
value `Ok(None)`; in particular, for `[1, 2, 3]` with the cursor on the
front element, `get(1)` returns `2` and `get(-1)` returns "no such
offset".  (On an empty list, and at offset `isize::MIN`, they instead
return the interference error — the counterexample theorem.) -/
theorem get_out_of_range_is_ok_none :
    (∀ (T : Type) (l : IterList T) (offset : Int), WF l → l.cur ≠ none →
      offset ≠ isizeMin →
      (offset < -(l.index : Int) ∨ (l.len : Int) ≤ (l.index : Int) + offset) →
      get l offset = .ok none ∧ get_mut l offset = .ok none) ∧
    get (fromVec [1, 2, 3]) 1 = .ok (some 2) ∧
    get (fromVec [1, 2, 3]) (-1) = .ok none ∧
    get_mut (fromVec [1, 2, 3]) (-1) = .ok none := by
  refine ⟨?_, by decide, by decide, by decide⟩
  intro T l offset hwf hcur hmin hrange
  obtain ⟨hidx, hlen, hnull, hW⟩ := hwf
  cases hc : l.cur with
  | none => exact absurd hc hcur
  | some c =>
      have hlen' : l.len = l.left.length + 1 + l.right.length := by
        rw [hlen]; simp [toList, hc]; omega
      have hoff0 : offset ≠ 0 := by
        intro h0; rw [h0] at hrange; omega
      rw [get_eq l c hc offset hmin, get_mut_eq l c hc offset hmin]
      rcases lt_trichotomy offset 0 with hneg | h0 | hpos
      · have hnone : l.left.get? ((-offset).toNat - 1) = none := by
          rw [List.get?_eq_none]
          rcases hrange with hr | hr <;> omega
        rw [if_neg hoff0, if_neg (by omega : ¬ offset > 0), hnone]
        exact ⟨rfl, rfl⟩
      · exact absurd h0 hoff0
      · have hnone : l.right.get? (offset.toNat - 1) = none := by
          rw [List.get?_eq_none]
          rcases hrange with hr | hr <;> omega
        rw [if_neg hoff0, if_pos hpos, hnone]
        exact ⟨rfl, rfl⟩

theorem get_out_of_range_is_ok_none_witness :
    get (fromVec [1, 2, 3]) 5 = .ok none ∧
    get_mut (fromVec [1, 2, 3]) 5 = .ok none :=
  get_out_of_range_is_ok_none.1 Nat (fromVec [1, 2, 3]) 5
    (by decide) (by decide) (by decide) (Or.inr (by decide))

/-- C5: whenever `insert_next` or `insert_prev` returns the failure
outcome, the value handed back is exactly the element passed in and the
whole list state (`current`, `index`, `len`) is unchanged; and `len` is
bumped exactly when the insertion links successfully. -/
theorem insert_failure_returns_element {T : Type} (l : IterList T)
    (e : T) (casWon : Bool) :
    (∀ e', (insert_next l e casWon).1 = .error e' →
        e' = e ∧ (insert_next l e casWon).2 = l) ∧
    ((insert_next l e casWon).1 = .ok () ↔
        (insert_next l e casWon).2.len = wadd l.len 1) ∧
    (∀ e', (insert_prev l e casWon).1 = .error e' →
        e' = e ∧ (insert_prev l e casWon).2 = l) ∧
    ((insert_prev l e casWon).1 = .ok () ↔
        (insert_prev l e casWon).2.len = wadd l.len 1) := by
  have hne := wadd_one_ne l.len
  cases hc : l.cur
  all_goals cases casWon
  all_goals simp_all [insert_next, insert_prev]
  all_goals exact fun h => absurd h.symm hne

theorem insert_failure_returns_element_witness :
    (1 : Nat) = 1 ∧ (insert_next (IterList.new Nat) 1 false).2 = IterList.new Nat :=
  (insert_failure_returns_element (IterList.new Nat) 1 false).1 1 (by decide)

/-- C8: from any position that is not at the relevant boundary, a
successful `advance()` followed by `retreat()` — and likewise `retreat()`
followed by `advance()` — restores the entire cursor state (`current()`
and `index()` included) to its value before the pair. -/
theorem advance_retreat_roundtrip {T : Type} (l : IterList T)
    (hW : l.index < W) :
    (l.cur.isSome → l.right ≠ [] →
      (advance l).1 = .ok true ∧ (retreat (advance l).2).1 = .ok true ∧
      (retreat (advance l).2).2 = l) ∧
    (l.cur.isSome → l.left ≠ [] →
      (retreat l).1 = .ok true ∧ (advance (retreat l).2).1 = .ok true ∧
      (advance (retreat l).2).2 = l) := by
  obtain ⟨lft, c, r, i, n⟩ := l
  constructor
  · intro hc hr
    cases c with
    | none => simp at hc
    | some c =>
        cases r with
        | nil => simp at hr
        | cons x rs => simp [advance, retreat, wsub_wadd_one i hW]
  · intro hc hl
    cases c with
    | none => simp at hc
    | some c =>
        cases lft with
        | nil => simp at hl
        | cons p ps => simp [advance, retreat, wadd_wsub_one i hW]

/-- Two worlds agreeing on everything the `IterList` owns: the node heap
and the list's three cells.  Cursor operations may only change the
complement (`curCurrent`, `curIndex`). -/
def sameListPart {T : Type} (w w' : World T) : Prop :=
  w'.next = w.next ∧ w'.prev = w.prev ∧ w'.elemAt = w.elemAt ∧
    w'.listCurrent = w.listCurrent ∧ w'.listIndex = w.listIndex ∧
    w'.listLen = w.listLen

theorem sameListPart_refl {T : Type} (w : World T) : sameListPart w w :=
  ⟨rfl, rfl, rfl, rfl, rfl, rfl⟩

theorem sameListPart_trans {T : Type} {a b c : World T}
    (h1 : sameListPart a b) (h2 : sameListPart b c) : sameListPart a c := by
  obtain ⟨n1, p1, e1, c1, i1, l1⟩ := h1
  obtain ⟨n2, p2, e2, c2, i2, l2⟩ := h2
  exact ⟨n2.trans n1, p2.trans p1, e2.trans e1, c2.trans c1, i2.trans i1, l2.trans l1⟩

theorem frame_cursorNext {T : Type} (w : World T) :
    sameListPart w (cursorNext w).2 := by
  unfold cursorNext
  cases w.curCurrent <;> exact ⟨rfl, rfl, rfl, rfl, rfl, rfl⟩

theorem frame_cursorAdvance {T : Type} (w : World T) :
    sameListPart w (cursorAdvance w).2 := by
  unfold cursorAdvance
  split
  · exact sameListPart_refl w
  · split
    · exact sameListPart_refl w
    · exact ⟨rfl, rfl, rfl, rfl, rfl, rfl⟩

theorem frame_cursorRetreat {T : Type} (w : World T) :
    sameListPart w (cursorRetreat w).2 := by
  unfold cursorRetreat
  split
  · exact sameListPart_refl w
  · split
    · exact sameListPart_refl w
    · exact ⟨rfl, rfl, rfl, rfl, rfl, rfl⟩

theorem frame_cursorAdvanceLoop {T : Type} :
    ∀ (n i : Nat) (w : World T), sameListPart w (cursorAdvanceLoop n i w).2 := by
  intro n
  induction n with
  | zero => intro i w; exact sameListPart_refl w
  | succ n ih =>
      intro i w
      rcases ha : cursorAdvance w with ⟨res, w'⟩
      have h1 : sameListPart w w' := by
        have h := frame_cursorAdvance w; rw [ha] at h; exact h
      rcases res with e | b
      · simpa only [cursorAdvanceLoop, ha] using h1
      · cases b
        · simpa only [cursorAdvanceLoop, ha] using h1
        · simp only [cursorAdvanceLoop, ha]
          exact sameListPart_trans h1 (ih (i + 1) w')

theorem frame_cursorRetreatLoop {T : Type} :
    ∀ (n i : Nat) (w : World T), sameListPart w (cursorRetreatLoop n i w).2 := by
  intro n
  induction n with
  | zero => intro i w; exact sameListPart_refl w
  | succ n ih =>
      intro i w
      rcases ha : cursorRetreat w with ⟨res, w'⟩
      have h1 : sameListPart w w' := by
        have h := frame_cursorRetreat w; rw [ha] at h; exact h
      rcases res with e | b
      · simpa only [cursorRetreatLoop, ha] using h1
      · cases b
        · simpa only [cursorRetreatLoop, ha] using h1
        · simp only [cursorRetreatLoop, ha]
          exact sameListPart_trans h1 (ih (i + 1) w')

theorem frame_cursorMoveTo {T : Type} (w : World T) (index : Nat) :
    sameListPart w (cursorMoveTo w index).2 := by
  unfold cursorMoveTo
  split
  · rcases hr : cursorRetreatLoop (wsub index w.curIndex) 0 w with ⟨res, w'⟩
    have h1 : sameListPart w w' := by
      have h := frame_cursorRetreatLoop (T := T) (wsub index w.curIndex) 0 w
      rw [hr] at h; exact h
    rcases res with e | i <;> simp only [] <;> first
      | exact h1
      | (split <;> exact h1)
  · split
    · rcases hr : cursorAdvanceLoop (wsub index w.curIndex) 0 w with ⟨res, w'⟩
      have h1 : sameListPart w w' := by
        have h := frame_cursorAdvanceLoop (T := T) (wsub index w.curIndex) 0 w
        rw [hr] at h; exact h
      rcases res with e | i <;> simp only [] <;> first
        | exact h1
        | (split <;> exact h1)
    · exact sameListPart_refl w

theorem frame_cursorMoveBy {T : Type} (w : World T) (offset : Int) :
    sameListPart w (cursorMoveBy w offset).2 := by
  unfold cursorMoveBy
  split
  · exact frame_cursorAdvanceLoop _ 0 w
  · split
    · exact frame_cursorRetreatLoop _ 0 w
    · exact sameListPart_refl w

theorem frame_cursorFrontLoop {T : Type} :
    ∀ (fuel off : Nat) (w : World T), sameListPart w (cursorFrontLoop fuel off w).2 := by
  intro fuel
  induction fuel with
  | zero => intro off w; exact sameListPart_refl w
  | succ n ih =>
      intro off w
      unfold cursorFrontLoop
      split
      · exact sameListPart_refl w
      · split
        · exact sameListPart_refl w
        · exact sameListPart_trans
            ⟨rfl, rfl, rfl, rfl, rfl, rfl⟩ (ih (off + 1) _)

theorem frame_cursorBackLoop {T : Type} :
    ∀ (fuel off : Nat) (w : World T), sameListPart w (cursorBackLoop fuel off w).2 := by
  intro fuel
  induction fuel with
  | zero => intro off w; exact sameListPart_refl w
  | succ n ih =>
      intro off w
      unfold cursorBackLoop
      split
      · exact sameListPart_refl w
      · split
        · exact sameListPart_refl w
        · exact sameListPart_trans
            ⟨rfl, rfl, rfl, rfl, rfl, rfl⟩ (ih (off + 1) _)

theorem frame_applyOp {T : Type} (op : CursorOp) (w : World T) :
    sameListPart w (applyOp op w) := by
  cases op with
  | next => exact frame_cursorNext w
  | advance => exact frame_cursorAdvance w
  | retreat => exact frame_cursorRetreat w
  | moveToFront fuel => exact frame_cursorFrontLoop fuel 0 _
  | moveToBack fuel =>
      show sameListPart w (cursorMoveToBack fuel w).2
      unfold cursorMoveToBack
      rcases hb : cursorBackLoop fuel 0 w with ⟨off, w'⟩
      have h := frame_cursorBackLoop (T := T) fuel 0 w
      rw [hb] at h
      exact sameListPart_trans h ⟨rfl, rfl, rfl, rfl, rfl, rfl⟩
  | moveTo i => exact frame_cursorMoveTo w i
  | moveBy o => exact frame_cursorMoveBy w o
  | get o => exact sameListPart_refl w

theorem frame_applyOps {T : Type} :
    ∀ (ops : List CursorOp) (w : World T), sameListPart w (applyOps ops w) := by
  intro ops
  induction ops with
  | nil => intro w; exact sameListPart_refl w
  | cons op rest ih =>
      intro w
      exact sameListPart_trans (frame_applyOp op w) (ih (applyOp op w))

/-- C9: any sequence of `Cursor` traversal operations (`next`, `advance`,
`retreat`, `move_to_front`, `move_to_back`, `move_to`, `move_by`, `get`)
leaves the owning `IterList`'s `current`, `index` and `len` cells — and
the node heap — exactly as they were: the cursor view operates purely on
its own copied position. -/
theorem cursor_ops_never_touch_list {T : Type} (ops : List CursorOp)
    (w : World T) :
    (applyOps ops w).listCurrent = w.listCurrent ∧
    (applyOps ops w).listIndex = w.listIndex ∧
    (applyOps ops w).listLen = w.listLen ∧
    (applyOps ops w).next = w.next ∧
    (applyOps ops w).prev = w.prev ∧
    (applyOps ops w).elemAt = w.elemAt := by
  obtain ⟨hn, hp, he, hc, hi, hl⟩ := frame_applyOps ops w
  exact ⟨hc, hi, hl, hn, hp, he⟩

theorem advance_retreat_roundtrip_witness :
    (retreat (advance (fromVec [1, 2])).2).2 = fromVec [1, 2] ∧
    (advance (retreat (move_to_back (fromVec [1, 2])).2).2).2 =
      (move_to_back (fromVec [1, 2])).2 :=
  ⟨((advance_retreat_roundtrip (fromVec [1, 2]) (by decide)).1
      (by decide) (by decide)).2.2,
   ((advance_retreat_roundtrip (move_to_back (fromVec [1, 2])).2 (by decide)).2
      (by decide) (by decide)).2.2⟩

end Iterlist

